import Mathlib

set_option maxHeartbeats 1000000

/-!
Shallow embedding of the envelope-encryption engine of the PersonalData
repository: the AES-256-GCM cipher wrapper (`src/backend/src/crypto/encryption.ts`),
the envelope key manager and KEK rotation (`keyManager.ts`), the high-level key
rotation (`src/backend/src/crypto/keyRotation.ts`), and the recovery-code vault
(`recoveryCodes.ts`).

Byte buffers (Node `Buffer`) are lists of naturals.  Randomness
(`crypto.randomBytes`, `crypto.randomInt`, the internal Argon2 salt) is made
explicit: every randomized operation takes a `Rng` — an infinite byte stream
plus a read position — and returns the advanced `Rng`.  Exceptions thrown by
the TypeScript code become `Except CryptoError` results.

The AES-256-GCM primitive itself and the Argon2id hash are library/built-in
functions that are not part of the repository; they are modelled from the spec
as ideal primitives (see `ksByte`, `gcmTag`, `argon2id` below).
-/

namespace PersonalData

/-- A byte buffer (Node `Buffer`), modelled as a list of naturals. -/
abbrev Buffer := List Nat

/-- `AES_KEY_SIZE` from encryption.ts: 32 bytes (256 bits). -/
def AES_KEY_SIZE : Nat := 32

/-- `AES_NONCE_SIZE` from encryption.ts: 12 bytes (96 bits, GCM). -/
def AES_NONCE_SIZE : Nat := 12

/-- `AES_TAG_SIZE` from encryption.ts: 16 bytes (128 bits). -/
def AES_TAG_SIZE : Nat := 16

/-- The errors thrown by the crypto layer: the key-size precondition
(`Key must be 32 bytes`), authentication failure
(`Decryption failed: invalid ciphertext or tag`), and the deserialization
guard (`Invalid encrypted data format`). -/
inductive CryptoError where
  | InvalidKeyLength
  | DecryptionFailed
  | InvalidFormat
deriving DecidableEq, Repr

/-- The `EncryptedData` interface of encryption.ts. -/
structure EncryptedData where
  ciphertext : Buffer
  nonce : Buffer
  tag : Buffer
deriving DecidableEq, Repr

/-- The cryptographically secure random source (`crypto.randomBytes` /
`crypto.randomInt`), modelled as an infinite byte stream with a read position. -/
structure Rng where
  stream : Nat → Nat
  pos : Nat

/-- `crypto.randomBytes(n)`: the next `n` bytes of the stream. -/
def randomBytes (g : Rng) (n : Nat) : Buffer × Rng :=
  ((List.range n).map (fun i => g.stream (g.pos + i)), ⟨g.stream, g.pos + n⟩)

/-- `crypto.randomInt(0, bound)`: one draw from the stream, reduced mod `bound`. -/
def randomInt (g : Rng) (bound : Nat) : Nat × Rng :=
  (g.stream g.pos % bound, ⟨g.stream, g.pos + 1⟩)

/-- Modelled from the spec: the keystream of the AES-256-GCM built-in
(`crypto.createCipheriv('aes-256-gcm', key, nonce)`), which is not part of the
repository.  It is some fixed deterministic function of key, nonce and byte
index; no theorem below depends on its shape, only on its determinism. -/
def ksByte (key nonce : Buffer) (i : Nat) : Nat :=
  (key.sum + 2 * nonce.sum + 3 * i) % 256

/-- XOR a buffer against the keystream of `(key, nonce)` starting at index `i`.
Applying it twice restores the input, as in counter-mode encryption. -/
def xorKS (key nonce : Buffer) (i : Nat) : Buffer → Buffer
  | [] => []
  | b :: bs => (b ^^^ ksByte key nonce i) :: xorKS key nonce (i + 1) bs

/-- Modelled from the spec: the 128-bit GCM authentication tag produced by the
Node built-in cipher, which is not part of the repository.  The spec requires
that any mismatch of key, nonce or ciphertext be detected, so the tag is
idealized as a perfectly binding MAC: an encoding from which key, nonce and
ciphertext are uniquely recoverable (`gcmTag_inj`). -/
def gcmTag (key nonce ciphertext : Buffer) : Buffer :=
  key.length :: key ++ nonce.length :: nonce ++ ciphertext

/-- The body of `encrypt` from encryption.ts after the nonce has been drawn:
key-size check, counter-mode encryption, tag computation. -/
def encryptWith (plaintext key nonce : Buffer) : Except CryptoError EncryptedData :=
  if key.length ≠ AES_KEY_SIZE then .error .InvalidKeyLength
  else
    let ciphertext := xorKS key nonce 0 plaintext
    .ok ⟨ciphertext, nonce, gcmTag key nonce ciphertext⟩

/-- `encrypt(plaintext, key)` from encryption.ts: checks the key size, draws a
fresh random 12-byte nonce internally, encrypts, returns ciphertext+nonce+tag. -/
def encrypt (plaintext key : Buffer) (g : Rng) :
    Except CryptoError (EncryptedData × Rng) :=
  if key.length ≠ AES_KEY_SIZE then .error .InvalidKeyLength
  else
    let nonce := (randomBytes g AES_NONCE_SIZE).1
    let g1 := (randomBytes g AES_NONCE_SIZE).2
    (encryptWith plaintext key nonce).map (fun e => (e, g1))

/-- `decrypt(encrypted, key)` from encryption.ts: checks the key size, verifies
the authentication tag, and only then returns the plaintext; any mismatch is
the single generic `DecryptionFailed` error. -/
def decrypt (encrypted : EncryptedData) (key : Buffer) : Except CryptoError Buffer :=
  if key.length ≠ AES_KEY_SIZE then .error .InvalidKeyLength
  else if encrypted.tag = gcmTag key encrypted.nonce encrypted.ciphertext then
    .ok (xorKS key encrypted.nonce 0 encrypted.ciphertext)
  else .error .DecryptionFailed

/-- `serializeEncrypted` from encryption.ts: `nonce || ciphertext || tag`. -/
def serializeEncrypted (encrypted : EncryptedData) : Buffer :=
  encrypted.nonce ++ encrypted.ciphertext ++ encrypted.tag

/-- `deserializeEncrypted` from encryption.ts: length guard, then first 12
bytes are the nonce, last 16 the tag, the middle the ciphertext. -/
def deserializeEncrypted (data : Buffer) : Except CryptoError EncryptedData :=
  if data.length < AES_NONCE_SIZE + AES_TAG_SIZE then .error .InvalidFormat
  else
    let nonce := data.take AES_NONCE_SIZE
    let tag := data.drop (data.length - AES_TAG_SIZE)
    let ciphertext := (data.take (data.length - AES_TAG_SIZE)).drop AES_NONCE_SIZE
    .ok ⟨ciphertext, nonce, tag⟩

/-- `generateDEK()` from encryption.ts: 32 fresh random bytes. -/
def generateDEK (g : Rng) : Buffer × Rng :=
  randomBytes g AES_KEY_SIZE

/-- `SALT_SIZE` from keyManager.ts: 16 bytes (128 bits). -/
def SALT_SIZE : Nat := 16

/-- The `KEKParams` interface of keyManager.ts. -/
structure KEKParams where
  key : Buffer
  salt : Buffer
deriving DecidableEq, Repr

/-- The `DEK` interface of keyManager.ts: plaintext key plus wrapped form. -/
structure DEK where
  key : Buffer
  wrapped : EncryptedData
deriving DecidableEq, Repr

/-- Modelled from the spec: the Argon2id password hash (the `argon2` npm
dependency, not part of the repository).  The spec demands determinism in
`(secret, salt)` and that different secrets or different salts yield unrelated
keys, so it is idealized as a deterministic, collision-free derivation:
an encoding from which password and salt are uniquely recoverable
(`argon2id_inj`). -/
def argon2id (password salt : Buffer) : Buffer :=
  password.length :: password ++ salt

/-- `deriveKEK(password, salt?)` from keyManager.ts: use the supplied salt, or
draw a fresh random 16-byte salt when none is given, then hash. -/
def deriveKEK (password : Buffer) (salt : Option Buffer) (g : Rng) :
    KEKParams × Rng :=
  match salt with
  | some s => (⟨argon2id password s, s⟩, g)
  | none =>
    let s := (randomBytes g SALT_SIZE).1
    let g1 := (randomBytes g SALT_SIZE).2
    (⟨argon2id password s, s⟩, g1)

/-- `wrapDEK(dek, kek)` from keyManager.ts: encrypt the DEK under the KEK. -/
def wrapDEK (dek kek : Buffer) (g : Rng) : Except CryptoError (EncryptedData × Rng) :=
  encrypt dek kek g

/-- `unwrapDEK(wrappedDEK, kek)` from keyManager.ts: decrypt under the KEK. -/
def unwrapDEK (wrappedDEK : EncryptedData) (kek : Buffer) : Except CryptoError Buffer :=
  decrypt wrappedDEK kek

/-- `generateWrappedDEK(kek)` from keyManager.ts: fresh random DEK, wrapped at
once; both forms returned together. -/
def generateWrappedDEK (kek : Buffer) (g : Rng) : Except CryptoError (DEK × Rng) :=
  let dek := (generateDEK g).1
  let g1 := (generateDEK g).2
  (wrapDEK dek kek g1).map (fun p => (⟨dek, p.1⟩, p.2))

/-- `rotateKEK(oldKEK, newKEK, wrappedDEKs)` from keyManager.ts: for each
wrapped DEK in order, unwrap with the old KEK and re-wrap with the new KEK;
the first failure aborts the whole rotation. -/
def rotateKEK (oldKEK newKEK : Buffer) (wrappedDEKs : List EncryptedData)
    (g : Rng) : Except CryptoError (List EncryptedData × Rng) :=
  match wrappedDEKs with
  | [] => .ok ([], g)
  | w :: ws => do
    let dek ← unwrapDEK w oldKEK
    let (newWrapped, g1) ← wrapDEK dek newKEK g
    let (rest, g2) ← rotateKEK oldKEK newKEK ws g1
    return (newWrapped :: rest, g2)

/-- `verifyKEK(kek, testWrappedDEK)` from keyManager.ts: true iff a test
unwrap succeeds. -/
def verifyKEK (kek : Buffer) (testWrappedDEK : EncryptedData) : Bool :=
  match unwrapDEK testWrappedDEK kek with
  | .ok _ => true
  | .error _ => false

/-- `CODE_LENGTH` from recoveryCodes.ts: 8 characters per code. -/
def CODE_LENGTH : Nat := 8

/-- `CODE_COUNT` from recoveryCodes.ts: 10 recovery codes. -/
def CODE_COUNT : Nat := 10

/-- `CODE_CHARSET` from recoveryCodes.ts: base32-like, no ambiguous chars. -/
def CODE_CHARSET : List Char := "ABCDEFGHJKLMNPQRSTUVWXYZ23456789".toList

/-- The inner loop of `generateRecoveryCodes`: draw `n` characters, each by a
`crypto.randomInt(0, CODE_CHARSET.length)` index into the charset. -/
def genCodeChars : Nat → Rng → List Char × Rng
  | 0, g => ([], g)
  | n + 1, g =>
    let r := (randomInt g CODE_CHARSET.length).1
    let g1 := (randomInt g CODE_CHARSET.length).2
    let rest := (genCodeChars n g1).1
    let g2 := (genCodeChars n g1).2
    (CODE_CHARSET.getD r 'A' :: rest, g2)

/-- The outer loop of `generateRecoveryCodes`: `n` codes of `CODE_LENGTH`
characters each, in generation order. -/
def genCodes : Nat → Rng → List String × Rng
  | 0, g => ([], g)
  | n + 1, g =>
    let code := (genCodeChars CODE_LENGTH g).1
    let g1 := (genCodeChars CODE_LENGTH g).2
    let rest := (genCodes n g1).1
    let g2 := (genCodes n g1).2
    (String.mk code :: rest, g2)

/-- `generateRecoveryCodes()` from recoveryCodes.ts. -/
def generateRecoveryCodes (g : Rng) : List String × Rng :=
  genCodes CODE_COUNT g

/-- The Argon2 encoded hash string returned by `argon2.hash`: it records the
internally drawn salt together with the Argon2id output. -/
structure Argon2Hash where
  salt : Buffer
  hash : Buffer
deriving DecidableEq, Repr

/-- The byte encoding of a code string passed to `argon2.hash`. -/
def strBytes (s : String) : Buffer :=
  s.data.map Char.toNat

/-- `hashRecoveryCode(code)` from recoveryCodes.ts: `argon2.hash` with a fresh
internal random salt. -/
def hashRecoveryCode (code : String) (g : Rng) : Argon2Hash × Rng :=
  let salt := (randomBytes g SALT_SIZE).1
  let g1 := (randomBytes g SALT_SIZE).2
  (⟨salt, argon2id (strBytes code) salt⟩, g1)

/-- Modelled from the spec: `argon2.verify` of the external npm `argon2`
library (not part of the repository): it recomputes the hash under the salt
recorded in the encoded hash and RESOLVES with the comparison result —
`false` on a mismatch — rejecting (throwing) only when the encoded hash
string is malformed, which the structured `Argon2Hash` representation rules
out, so in this embedding it never errors. -/
def argon2VerifyLib (stored : Argon2Hash) (code : String) : Except CryptoError Bool :=
  .ok (argon2id (strBytes code) stored.salt == stored.hash)

/-- `verifyRecoveryCode(code, hash)` from recoveryCodes.ts: the source awaits
`argon2.verify` inside a try block and returns `true` unless it throws,
returning `false` only from the catch; the boolean that `argon2.verify`
resolves with is DISCARDED. -/
def verifyRecoveryCode (code : String) (stored : Argon2Hash) : Bool :=
  match argon2VerifyLib stored code with
  | .ok _ => true
  | .error _ => false

/-! ### Basic lemmas about the cipher model -/

theorem xorKS_length (key nonce : Buffer) (i : Nat) (bs : Buffer) :
    (xorKS key nonce i bs).length = bs.length := by
  induction bs generalizing i with
  | nil => rfl
  | cons b bs ih => simp [xorKS, ih]

theorem xorKS_xorKS (key nonce : Buffer) (i : Nat) (bs : Buffer) :
    xorKS key nonce i (xorKS key nonce i bs) = bs := by
  induction bs generalizing i with
  | nil => rfl
  | cons b bs ih => simp [xorKS, ih, Nat.xor_cancel_right]

theorem gcmTag_inj {k n c k' n' c' : Buffer}
    (h : gcmTag k n c = gcmTag k' n' c') : k = k' ∧ n = n' ∧ c = c' := by
  unfold gcmTag at h
  simp only [List.append_assoc, List.cons_append, List.cons.injEq] at h
  obtain ⟨hklen, htail⟩ := h
  obtain ⟨hk, hrest⟩ := List.append_inj htail hklen
  simp only [List.cons.injEq] at hrest
  obtain ⟨hnlen, happ⟩ := hrest
  obtain ⟨hn, hc⟩ := List.append_inj happ hnlen
  exact ⟨hk, hn, hc⟩

theorem argon2id_inj {p s p' s' : Buffer}
    (h : argon2id p s = argon2id p' s') : p = p' ∧ s = s' := by
  unfold argon2id at h
  simp only [List.append_assoc, List.cons_append, List.cons.injEq] at h
  exact List.append_inj h.2 h.1

theorem encrypt_eq_ok {key : Buffer} (hk : key.length = AES_KEY_SIZE)
    (p : Buffer) (g : Rng) :
    encrypt p key g =
      .ok (⟨xorKS key (randomBytes g AES_NONCE_SIZE).1 0 p,
        (randomBytes g AES_NONCE_SIZE).1,
        gcmTag key (randomBytes g AES_NONCE_SIZE).1
          (xorKS key (randomBytes g AES_NONCE_SIZE).1 0 p)⟩,
        (randomBytes g AES_NONCE_SIZE).2) := by
  simp [encrypt, encryptWith, hk, Except.map]

theorem decrypt_mk_ok {key : Buffer} (hk : key.length = AES_KEY_SIZE)
    (nonce p : Buffer) :
    decrypt ⟨xorKS key nonce 0 p, nonce, gcmTag key nonce (xorKS key nonce 0 p)⟩
      key = .ok p := by
  simp [decrypt, hk, xorKS_xorKS]

theorem decrypt_wrong_key {key key' : Buffer} (hk' : key'.length = AES_KEY_SIZE)
    (hne : key' ≠ key) (nonce c : Buffer) :
    decrypt ⟨c, nonce, gcmTag key nonce c⟩ key' = .error .DecryptionFailed := by
  have hne' : gcmTag key nonce c ≠ gcmTag key' nonce c :=
    fun h => hne ((gcmTag_inj h).1).symm
  simp [decrypt, hk', hne']

theorem decrypt_ok_or_failed {key : Buffer} (hk : key.length = AES_KEY_SIZE)
    (e : EncryptedData) :
    (∃ v, decrypt e key = .ok v) ∨ decrypt e key = .error .DecryptionFailed := by
  by_cases h : e.tag = gcmTag key e.nonce e.ciphertext
  · exact .inl ⟨xorKS key e.nonce 0 e.ciphertext, by simp [decrypt, hk, h]⟩
  · exact .inr (by simp [decrypt, hk, h])

/-- C1: AEAD/envelope round-trip: for every 32-byte key and every byte string
`p`, decrypting the output of `encrypt p key` under the same key returns `p`;
likewise `unwrapDEK (wrapDEK dek kek) kek = dek`, and `generateWrappedDEK kek`
returns a pair whose wrapped form unwraps under `kek` to its plaintext key. -/
theorem aead_envelope_roundtrip (key p dek : Buffer) (g : Rng)
    (hk : key.length = AES_KEY_SIZE) :
    (∃ e g1, encrypt p key g = .ok (e, g1) ∧ decrypt e key = .ok p) ∧
    (∃ w g1, wrapDEK dek key g = .ok (w, g1) ∧ unwrapDEK w key = .ok dek) ∧
    (∃ d g1, generateWrappedDEK key g = .ok (d, g1) ∧
      unwrapDEK d.wrapped key = .ok d.key) := by
  refine ⟨⟨_, _, encrypt_eq_ok hk p g, decrypt_mk_ok hk _ p⟩,
    ⟨_, _, encrypt_eq_ok hk dek g, decrypt_mk_ok hk _ dek⟩, ?_⟩
  refine ⟨⟨(generateDEK g).1,
    ⟨xorKS key (randomBytes (generateDEK g).2 AES_NONCE_SIZE).1 0 (generateDEK g).1,
      (randomBytes (generateDEK g).2 AES_NONCE_SIZE).1,
      gcmTag key (randomBytes (generateDEK g).2 AES_NONCE_SIZE).1
        (xorKS key (randomBytes (generateDEK g).2 AES_NONCE_SIZE).1 0
          (generateDEK g).1)⟩⟩,
    (randomBytes (generateDEK g).2 AES_NONCE_SIZE).2, ?_,
    decrypt_mk_ok hk _ (generateDEK g).1⟩
  simp [generateWrappedDEK, wrapDEK, encrypt_eq_ok hk, Except.map]

/-- Witness for C1 at a concrete key, plaintext, DEK and random stream. -/
theorem aead_envelope_roundtrip_witness :
    (List.replicate 32 0 : Buffer).length = AES_KEY_SIZE ∧
    ((∃ e g1, encrypt [104, 105] (List.replicate 32 0) ⟨fun _ => 7, 0⟩ = .ok (e, g1) ∧
        decrypt e (List.replicate 32 0) = .ok [104, 105]) ∧
      (∃ w g1, wrapDEK (List.replicate 32 9) (List.replicate 32 0) ⟨fun _ => 7, 0⟩ =
          .ok (w, g1) ∧
        unwrapDEK w (List.replicate 32 0) = .ok (List.replicate 32 9)) ∧
      (∃ d g1, generateWrappedDEK (List.replicate 32 0) ⟨fun _ => 7, 0⟩ = .ok (d, g1) ∧
        unwrapDEK d.wrapped (List.replicate 32 0) = .ok d.key)) :=
  ⟨by decide,
    aead_envelope_roundtrip (List.replicate 32 0) [104, 105] (List.replicate 32 9)
      ⟨fun _ => 7, 0⟩ (by decide)⟩

/-! ### Tamper detection (C2) -/

/-- Flip bit `j` of byte `i` of a buffer. -/
def flipBit (bs : Buffer) (i j : Nat) : Buffer :=
  bs.set i (bs.getD i 0 ^^^ 2 ^ j)

theorem set_ne_of_ne {bs : Buffer} {i v : Nat} (hi : i < bs.length)
    (hv : v ≠ bs.getD i 0) : bs.set i v ≠ bs := by
  induction bs generalizing i with
  | nil => simp at hi
  | cons b t ih =>
    cases i with
    | zero =>
      simp only [List.set_cons_zero, ne_eq, List.cons.injEq, not_and]
      intro hvb
      exact absurd hvb (by simpa using hv)
    | succ n =>
      have hi2 : n < t.length := by simpa using hi
      have hv2 : v ≠ t.getD n 0 := by simpa using hv
      simpa [List.set_cons_succ, List.cons.injEq] using ih hi2 hv2

theorem flipBit_ne {bs : Buffer} {i : Nat} (j : Nat) (hi : i < bs.length) :
    flipBit bs i j ≠ bs := by
  apply set_ne_of_ne hi
  intro h
  have h2 : bs.getD i 0 ^^^ (bs.getD i 0 ^^^ 2 ^ j) =
      bs.getD i 0 ^^^ bs.getD i 0 := by rw [h]
  rw [Nat.xor_cancel_left, Nat.xor_self] at h2
  exact absurd h2 (Nat.pos_iff_ne_zero.1 (Nat.two_pow_pos j))

/-- C2: tamper and wrong-key detection: for a blob produced by `encrypt` under
a 32-byte key, flipping any single bit of the ciphertext or of the tag makes
`decrypt` return the generic `DecryptionFailed` error (never corrupted
plaintext), and decryption under any other 32-byte key returns the very same
undifferentiated `DecryptionFailed` error. -/
theorem tamper_wrong_key_detection (key p : Buffer) (g : Rng)
    (e : EncryptedData) (g1 : Rng) (hk : key.length = AES_KEY_SIZE)
    (he : encrypt p key g = .ok (e, g1)) :
    (∀ i j, i < e.ciphertext.length →
      decrypt ⟨flipBit e.ciphertext i j, e.nonce, e.tag⟩ key =
        .error .DecryptionFailed) ∧
    (∀ i j, i < e.tag.length →
      decrypt ⟨e.ciphertext, e.nonce, flipBit e.tag i j⟩ key =
        .error .DecryptionFailed) ∧
    (∀ key2, key2.length = AES_KEY_SIZE → key2 ≠ key →
      decrypt e key2 = .error .DecryptionFailed) := by
  rw [encrypt_eq_ok hk p g] at he
  injection he with h2
  injection h2 with he2 hg1
  subst he2
  set n := (randomBytes g AES_NONCE_SIZE).1 with hn
  set c := xorKS key n 0 p with hc
  refine ⟨?_, ?_, ?_⟩
  · intro i j hi
    have hne : gcmTag key n c ≠ gcmTag key n (flipBit c i j) := by
      intro htag
      exact flipBit_ne j hi (gcmTag_inj htag).2.2.symm
    simp [decrypt, hk, hne]
  · intro i j hi
    have hne : flipBit (gcmTag key n c) i j ≠ gcmTag key n c :=
      flipBit_ne j hi
    simp [decrypt, hk, hne]
  · intro key2 hk2 hne
    exact decrypt_wrong_key hk2 hne n c

/-- Concrete inputs used by the witnesses and counterexamples below. -/
def cK0 : Buffer := List.replicate 32 0

/-- A second, different 32-byte key. -/
def cK1 : Buffer := List.replicate 32 1

/-- A concrete random stream. -/
def cG : Rng := ⟨fun _ => 3, 0⟩

/-- The nonce `encrypt` draws from `cG`. -/
def cNonce : Buffer := (randomBytes cG AES_NONCE_SIZE).1

/-- A concrete 32-byte DEK. -/
def cDek : Buffer := List.replicate 32 9

/-- The ciphertext of `cDek` under `cK0` and `cNonce`. -/
def cCipher : Buffer := xorKS cK0 cNonce 0 cDek

/-- `cDek` wrapped under `cK0`: exactly what `wrapDEK cDek cK0 cG` returns. -/
def cBlob : EncryptedData := ⟨cCipher, cNonce, gcmTag cK0 cNonce cCipher⟩

/-- Witness for C2: bit-flips and a wrong key on a concrete blob. -/
theorem tamper_wrong_key_detection_witness :
    decrypt ⟨flipBit cBlob.ciphertext 0 0, cBlob.nonce, cBlob.tag⟩ cK0 =
      .error .DecryptionFailed ∧
    decrypt ⟨cBlob.ciphertext, cBlob.nonce, flipBit cBlob.tag 0 0⟩ cK0 =
      .error .DecryptionFailed ∧
    decrypt cBlob cK1 = .error .DecryptionFailed := by
  have h := tamper_wrong_key_detection cK0 cDek cG cBlob
    (randomBytes cG AES_NONCE_SIZE).2 (by decide) rfl
  exact ⟨h.1 0 0 (by decide), h.2.1 0 0 (by decide),
    h.2.2 cK1 (by decide) (by decide)⟩

/-! ### Key rotation (C3, C5) -/

theorem exceptRotBind_ok {ε : Type} {α β : Type} (a : α) (f : α → Except ε β) :
    (Except.ok a : Except ε α) >>= f = f a := rfl

theorem exceptRotBind_error {ε : Type} {α β : Type} (e : ε) (f : α → Except ε β) :
    (Except.error e : Except ε α) >>= f = Except.error e := rfl

theorem exceptRotMap_ok {ε : Type} {α β : Type} (f : α → β) (a : α) :
    f <$> (Except.ok a : Except ε α) = Except.ok (f a) := rfl

theorem exceptRotMap_error {ε : Type} {α β : Type} (f : α → β) (e : ε) :
    f <$> (Except.error e : Except ε α) = Except.error e := rfl

theorem rotateKEK_cons {oldKEK newKEK : Buffer} {w : EncryptedData}
    {ws : List EncryptedData} {g : Rng} {d : Buffer}
    (hd : unwrapDEK w oldKEK = .ok d) {b : EncryptedData} {g1 : Rng}
    (hw : wrapDEK d newKEK g = .ok (b, g1)) {out : List EncryptedData} {g2 : Rng}
    (hrec : rotateKEK oldKEK newKEK ws g1 = .ok (out, g2)) :
    rotateKEK oldKEK newKEK (w :: ws) g = .ok (b :: out, g2) := by
  simp [rotateKEK, hd, hw, hrec, exceptRotBind_ok, exceptRotMap_ok]

/-- C3 (amended): rotation correctness for distinct KEKs: for 32-byte
`oldKEK ≠ newKEK` and a list of wrapped DEKs that all unwrap under `oldKEK`,
`rotateKEK` succeeds with a list of the same length in the same order, whose
`i`-th element unwraps under `newKEK` to exactly the plaintext DEK the `i`-th
input held under `oldKEK`, and no result unwraps under `oldKEK`.  The rotation
reads nothing but the wrapped DEKs — item ciphertext is not an input — and
performs one unwrap and one wrap per item. -/
theorem rotation_correctness (oldKEK newKEK : Buffer) (ws : List EncryptedData)
    (g : Rng) (hold : oldKEK.length = AES_KEY_SIZE)
    (hnew : newKEK.length = AES_KEY_SIZE) (hne : oldKEK ≠ newKEK)
    (hok : ∀ w ∈ ws, ∃ d, unwrapDEK w oldKEK = .ok d) :
    ∃ out g2, rotateKEK oldKEK newKEK ws g = .ok (out, g2) ∧
      out.length = ws.length ∧
      ∀ i, i < ws.length →
        unwrapDEK (out.getD i ⟨[], [], []⟩) newKEK =
          unwrapDEK (ws.getD i ⟨[], [], []⟩) oldKEK ∧
        unwrapDEK (out.getD i ⟨[], [], []⟩) oldKEK = .error .DecryptionFailed := by
  induction ws generalizing g with
  | nil => exact ⟨[], g, rfl, rfl, by intro i hi; simp at hi⟩
  | cons w ws ih =>
    obtain ⟨d, hd⟩ := hok w (List.mem_cons_self w ws)
    have hw : wrapDEK d newKEK g = .ok
        (⟨xorKS newKEK (randomBytes g AES_NONCE_SIZE).1 0 d,
          (randomBytes g AES_NONCE_SIZE).1,
          gcmTag newKEK (randomBytes g AES_NONCE_SIZE).1
            (xorKS newKEK (randomBytes g AES_NONCE_SIZE).1 0 d)⟩,
          (randomBytes g AES_NONCE_SIZE).2) := encrypt_eq_ok hnew d g
    obtain ⟨out, g2, hrot, hlen, hprop⟩ :=
      ih (randomBytes g AES_NONCE_SIZE).2 (fun x hx => hok x (List.mem_cons_of_mem w hx))
    refine ⟨_ :: out, g2, rotateKEK_cons hd hw hrot, by simpa using hlen, ?_⟩
    intro i hi
    cases i with
    | zero =>
      simp only [List.getD_cons_zero]
      constructor
      · rw [show unwrapDEK w oldKEK = Except.ok d from hd]
        exact decrypt_mk_ok hnew (randomBytes g AES_NONCE_SIZE).1 d
      · exact decrypt_wrong_key hold hne (randomBytes g AES_NONCE_SIZE).1
          (xorKS newKEK (randomBytes g AES_NONCE_SIZE).1 0 d)
    | succ m =>
      have hm : m < ws.length := by simpa using hi
      simpa using hprop m hm

/-- Counterexample for C3 as stated: the claim quantifies over every pair of
KEKs, but when `oldKEK = newKEK` the rotated output still unwraps successfully
under `oldKEK`. -/
theorem rotation_counterexample :
    ∃ out g2, rotateKEK cK0 cK0 [cBlob] cG = .ok (out, g2) ∧
      unwrapDEK (out.getD 0 ⟨[], [], []⟩) cK0 = .ok cDek := by
  have hd : unwrapDEK cBlob cK0 = .ok cDek :=
    decrypt_mk_ok (by decide) cNonce cDek
  have hw : wrapDEK cDek cK0 cG = .ok
      (⟨xorKS cK0 (randomBytes cG AES_NONCE_SIZE).1 0 cDek,
        (randomBytes cG AES_NONCE_SIZE).1,
        gcmTag cK0 (randomBytes cG AES_NONCE_SIZE).1
          (xorKS cK0 (randomBytes cG AES_NONCE_SIZE).1 0 cDek)⟩,
        (randomBytes cG AES_NONCE_SIZE).2) := encrypt_eq_ok (by decide) cDek cG
  refine ⟨_, _, rotateKEK_cons hd hw rfl, ?_⟩
  simpa using decrypt_mk_ok (by decide) (randomBytes cG AES_NONCE_SIZE).1 cDek

/-- Witness for C3 (amended) at concrete distinct keys and one wrapped DEK. -/
theorem rotation_correctness_witness :
    ∃ out g2, rotateKEK cK0 cK1 [cBlob] cG = .ok (out, g2) ∧
      out.length = [cBlob].length ∧
      ∀ i, i < [cBlob].length →
        unwrapDEK (out.getD i ⟨[], [], []⟩) cK1 =
          unwrapDEK ([cBlob].getD i ⟨[], [], []⟩) cK0 ∧
        unwrapDEK (out.getD i ⟨[], [], []⟩) cK0 = .error .DecryptionFailed :=
  rotation_correctness cK0 cK1 [cBlob] cG (by decide) (by decide) (by decide)
    (fun w hw => by
      rw [show w = cBlob by simpa using hw]
      exact ⟨cDek, decrypt_mk_ok (by decide) cNonce cDek⟩)

/-- C5: rotation failure atomicity: if any single wrapped DEK in the batch
fails to unwrap under `oldKEK` (with 32-byte KEKs the only such failure is the
generic decryption failure), the whole rotation returns that error and no
partial output list: no item is skipped and no subset of re-wrapped DEKs is
returned. -/
theorem rotation_abort_on_failure (oldKEK newKEK : Buffer)
    (ws : List EncryptedData) (g : Rng) (hold : oldKEK.length = AES_KEY_SIZE)
    (hnew : newKEK.length = AES_KEY_SIZE)
    (hbad : ∃ w ∈ ws, unwrapDEK w oldKEK = .error .DecryptionFailed) :
    rotateKEK oldKEK newKEK ws g = .error .DecryptionFailed := by
  induction ws generalizing g with
  | nil => simp at hbad
  | cons w ws ih =>
    obtain ⟨w0, hmem, hw0⟩ := hbad
    rcases List.mem_cons.1 hmem with heq | hmem2
    · subst heq
      simp [rotateKEK, hw0, exceptRotBind_error]
    · rcases decrypt_ok_or_failed hold w with ⟨d, hd⟩ | herr
      · have hw : wrapDEK d newKEK g = .ok
            (⟨xorKS newKEK (randomBytes g AES_NONCE_SIZE).1 0 d,
              (randomBytes g AES_NONCE_SIZE).1,
              gcmTag newKEK (randomBytes g AES_NONCE_SIZE).1
                (xorKS newKEK (randomBytes g AES_NONCE_SIZE).1 0 d)⟩,
              (randomBytes g AES_NONCE_SIZE).2) := encrypt_eq_ok hnew d g
        have hrec := ih (randomBytes g AES_NONCE_SIZE).2 ⟨w0, hmem2, hw0⟩
        simp [rotateKEK, unwrapDEK, hd, hw, hrec, exceptRotBind_ok,
          exceptRotBind_error, exceptRotMap_error]
      · simp [rotateKEK, unwrapDEK, herr, exceptRotBind_error]

/-- Witness for C5: a batch containing one undecryptable blob aborts wholly. -/
theorem rotation_abort_on_failure_witness :
    rotateKEK cK0 cK1 [⟨[], [], []⟩] cG = .error .DecryptionFailed :=
  rotation_abort_on_failure cK0 cK1 [⟨[], [], []⟩] cG (by decide) (by decide)
    ⟨⟨[], [], []⟩, List.mem_cons_self _ _, rfl⟩

/-! ### KEK derivation (C4) -/

/-- C4: KEK derivation: with a supplied salt, derivation is a pure function of
`(secret, salt)` — independent of the random stream — and different secrets or
different salts give different keys; with the salt omitted, a fresh 16-byte
(128-bit) salt is read from the random source and returned alongside the key
derived from it. -/
theorem deriveKEK_deterministic (p p2 s s2 : Buffer) (g g2 : Rng) :
    (deriveKEK p (some s) g).1 = (deriveKEK p (some s) g2).1 ∧
    (p ≠ p2 ∨ s ≠ s2 →
      (deriveKEK p (some s) g).1.key ≠ (deriveKEK p2 (some s2) g2).1.key) ∧
    ((deriveKEK p none g).1.salt = (randomBytes g SALT_SIZE).1 ∧
      (deriveKEK p none g).1.salt.length = SALT_SIZE ∧
      (deriveKEK p none g).1.key = argon2id p (deriveKEK p none g).1.salt) := by
  refine ⟨rfl, ?_, rfl, ?_, rfl⟩
  · intro hne h
    rcases argon2id_inj h with ⟨hp, hs⟩
    rcases hne with hne | hne
    · exact hne hp
    · exact hne hs
  · simp [deriveKEK, randomBytes, SALT_SIZE]

/-- Witness for C4: same inputs agree; changing the secret or the salt changes
the key, at concrete inputs. -/
theorem deriveKEK_deterministic_witness :
    (deriveKEK [1] (some [7]) cG).1 = (deriveKEK [1] (some [7]) ⟨fun _ => 5, 2⟩).1 ∧
    (deriveKEK [1] (some [7]) cG).1.key ≠ (deriveKEK [2] (some [7]) cG).1.key ∧
    (deriveKEK [1] (some [7]) cG).1.key ≠ (deriveKEK [1] (some [8]) cG).1.key :=
  ⟨(deriveKEK_deterministic [1] [1] [7] [7] cG ⟨fun _ => 5, 2⟩).1,
    (deriveKEK_deterministic [1] [2] [7] [7] cG cG).2.1 (.inl (by decide)),
    (deriveKEK_deterministic [1] [1] [7] [8] cG cG).2.1 (.inr (by decide))⟩

/-- C9: serialization format and round-trip: `serializeEncrypted` is exactly
`nonce ++ ciphertext ++ tag` (no length prefix), and for every value with a
12-byte nonce and a 16-byte tag, deserializing the serialization restores it. -/
theorem serialize_roundtrip (e : EncryptedData)
    (hn : e.nonce.length = AES_NONCE_SIZE) (ht : e.tag.length = AES_TAG_SIZE) :
    serializeEncrypted e = e.nonce ++ e.ciphertext ++ e.tag ∧
    deserializeEncrypted (serializeEncrypted e) = .ok e := by
  obtain ⟨cc, nn, tt⟩ := e
  simp only at hn ht
  refine ⟨rfl, ?_⟩
  have hn12 : nn.length = 12 := by simpa [AES_NONCE_SIZE] using hn
  have ht16 : tt.length = 16 := by simpa [AES_TAG_SIZE] using ht
  have hL : (nn ++ cc).length = (nn ++ cc ++ tt).length - AES_TAG_SIZE := by
    simp [List.length_append, hn12, ht16, AES_TAG_SIZE]; omega
  have hge : ¬ (nn ++ cc ++ tt).length < AES_NONCE_SIZE + AES_TAG_SIZE := by
    simp [List.length_append, hn12, ht16, AES_NONCE_SIZE, AES_TAG_SIZE]; omega
  have t1 : (nn ++ cc ++ tt).take AES_NONCE_SIZE = nn := by
    rw [List.append_assoc]; exact List.take_left' hn
  have t2 : (nn ++ cc ++ tt).drop ((nn ++ cc ++ tt).length - AES_TAG_SIZE) = tt :=
    List.drop_left' hL
  have t3 : ((nn ++ cc ++ tt).take ((nn ++ cc ++ tt).length - AES_TAG_SIZE)).drop
      AES_NONCE_SIZE = cc := by
    rw [List.take_left' hL]; exact List.drop_left' hn
  show deserializeEncrypted (nn ++ cc ++ tt) = .ok ⟨cc, nn, tt⟩
  simp only [deserializeEncrypted, if_neg hge]
  rw [t1, t2, t3]

/-- Witness for C9 at a concrete encrypted value. -/
theorem serialize_roundtrip_witness :
    (List.replicate 12 1 : Buffer).length = AES_NONCE_SIZE ∧
    (List.replicate 16 2 : Buffer).length = AES_TAG_SIZE ∧
    (serializeEncrypted ⟨[5, 6], List.replicate 12 1, List.replicate 16 2⟩ =
        List.replicate 12 1 ++ [5, 6] ++ List.replicate 16 2 ∧
      deserializeEncrypted (serializeEncrypted
        ⟨[5, 6], List.replicate 12 1, List.replicate 16 2⟩) =
        .ok ⟨[5, 6], List.replicate 12 1, List.replicate 16 2⟩) :=
  ⟨by decide, by decide,
    serialize_roundtrip ⟨[5, 6], List.replicate 12 1, List.replicate 16 2⟩
      (by decide) (by decide)⟩

/-- C10: deserialization totality guard: inputs shorter than 28 bytes are
rejected with the invalid-format error; inputs of length at least 28 succeed,
splitting into the first 12 bytes (nonce), last 16 bytes (tag) and the
possibly-empty middle (ciphertext); a 28-byte input yields empty ciphertext. -/
theorem deserialize_guard (data : Buffer) :
    (data.length < AES_NONCE_SIZE + AES_TAG_SIZE →
      deserializeEncrypted data = .error .InvalidFormat) ∧
    (AES_NONCE_SIZE + AES_TAG_SIZE ≤ data.length →
      ∃ e, deserializeEncrypted data = .ok e ∧
        e.nonce = data.take AES_NONCE_SIZE ∧
        e.tag = data.drop (data.length - AES_TAG_SIZE) ∧
        e.nonce.length = AES_NONCE_SIZE ∧ e.tag.length = AES_TAG_SIZE ∧
        data = e.nonce ++ e.ciphertext ++ e.tag ∧
        e.ciphertext.length = data.length - (AES_NONCE_SIZE + AES_TAG_SIZE)) ∧
    (data.length = AES_NONCE_SIZE + AES_TAG_SIZE →
      ∃ e, deserializeEncrypted data = .ok e ∧ e.ciphertext = []) := by
  constructor
  · intro h
    simp [deserializeEncrypted, if_pos h]
  have main : AES_NONCE_SIZE + AES_TAG_SIZE ≤ data.length →
      ∃ e, deserializeEncrypted data = .ok e ∧
        e.nonce = data.take AES_NONCE_SIZE ∧
        e.tag = data.drop (data.length - AES_TAG_SIZE) ∧
        e.nonce.length = AES_NONCE_SIZE ∧ e.tag.length = AES_TAG_SIZE ∧
        data = e.nonce ++ e.ciphertext ++ e.tag ∧
        e.ciphertext.length = data.length - (AES_NONCE_SIZE + AES_TAG_SIZE) := by
    intro h
    have h28 : 28 ≤ data.length := by
      simpa [AES_NONCE_SIZE, AES_TAG_SIZE] using h
    have hnot : ¬ data.length < AES_NONCE_SIZE + AES_TAG_SIZE := by
      simp [AES_NONCE_SIZE, AES_TAG_SIZE]; omega
    refine ⟨⟨(data.take (data.length - AES_TAG_SIZE)).drop AES_NONCE_SIZE,
      data.take AES_NONCE_SIZE, data.drop (data.length - AES_TAG_SIZE)⟩,
      by simp only [deserializeEncrypted, if_neg hnot], rfl, rfl, ?_, ?_, ?_, ?_⟩
    · simp [List.length_take, AES_NONCE_SIZE]; omega
    · simp [List.length_drop, AES_TAG_SIZE]; omega
    · show data = data.take AES_NONCE_SIZE ++
        ((data.take (data.length - AES_TAG_SIZE)).drop AES_NONCE_SIZE) ++
        data.drop (data.length - AES_TAG_SIZE)
      have hmin : min AES_NONCE_SIZE (data.length - AES_TAG_SIZE) = AES_NONCE_SIZE := by
        simp [AES_NONCE_SIZE, AES_TAG_SIZE]; omega
      have h1 : data.take AES_NONCE_SIZE ++
          ((data.take (data.length - AES_TAG_SIZE)).drop AES_NONCE_SIZE) =
          data.take (data.length - AES_TAG_SIZE) := by
        have hb := List.take_append_drop AES_NONCE_SIZE
          (data.take (data.length - AES_TAG_SIZE))
        rwa [List.take_take, hmin] at hb
      calc data = data.take (data.length - AES_TAG_SIZE) ++
            data.drop (data.length - AES_TAG_SIZE) :=
            (List.take_append_drop _ data).symm
        _ = data.take AES_NONCE_SIZE ++
            ((data.take (data.length - AES_TAG_SIZE)).drop AES_NONCE_SIZE) ++
            data.drop (data.length - AES_TAG_SIZE) := by rw [h1]
    · show ((data.take (data.length - AES_TAG_SIZE)).drop AES_NONCE_SIZE).length =
        data.length - (AES_NONCE_SIZE + AES_TAG_SIZE)
      simp [List.length_drop, List.length_take, AES_NONCE_SIZE, AES_TAG_SIZE]
      omega
  refine ⟨main, ?_⟩
  intro h
  obtain ⟨e, he, -, -, -, -, -, hclen⟩ := main (le_of_eq h.symm)
  exact ⟨e, he, List.length_eq_zero.1 (by omega)⟩

/-- Witness for C10 at a short input and at 28- and 30-byte inputs. -/
theorem deserialize_guard_witness :
    ((List.replicate 27 0 : Buffer).length < AES_NONCE_SIZE + AES_TAG_SIZE →
      deserializeEncrypted (List.replicate 27 0) = .error .InvalidFormat) ∧
    ((List.replicate 27 0 : Buffer).length < AES_NONCE_SIZE + AES_TAG_SIZE) ∧
    (AES_NONCE_SIZE + AES_TAG_SIZE ≤ (List.replicate 30 0 : Buffer).length) ∧
    ((List.replicate 28 0 : Buffer).length = AES_NONCE_SIZE + AES_TAG_SIZE →
      ∃ e, deserializeEncrypted (List.replicate 28 0) = .ok e ∧ e.ciphertext = []) :=
  ⟨(deserialize_guard (List.replicate 27 0)).1, by decide, by decide,
    (deserialize_guard (List.replicate 28 0)).2.2⟩

/-! ### Nonce freshness across successive encryptions (C6) -/

/-- The 12-byte block the random source supplies to the `i`-th of a run of
successive `encrypt` calls starting at `g`. -/
def nonceBlock (g : Rng) (i : Nat) : Buffer :=
  (List.range AES_NONCE_SIZE).map
    (fun t => g.stream (g.pos + (AES_NONCE_SIZE * i + t)))

/-- Driver for the spec's "N successive `encrypt` calls with the same key":
repeats `encrypt`, threading the random source; a failing call aborts. -/
def encryptCalls (p k : Buffer) : Nat → Rng → List EncryptedData × Rng
  | 0, g => ([], g)
  | n + 1, g =>
    match encrypt p k g with
    | .ok (e, g1) =>
      (e :: (encryptCalls p k n g1).1, (encryptCalls p k n g1).2)
    | .error _ => ([], g)

theorem nonceBlock_zero (g : Rng) :
    nonceBlock g 0 = (randomBytes g AES_NONCE_SIZE).1 := by
  simp [nonceBlock, randomBytes]

theorem nonceBlock_succ (g : Rng) (i : Nat) :
    nonceBlock ⟨g.stream, g.pos + AES_NONCE_SIZE⟩ i = nonceBlock g (i + 1) := by
  unfold nonceBlock
  refine congrArg (fun f => List.map f (List.range AES_NONCE_SIZE)) ?_
  funext t
  show g.stream (g.pos + AES_NONCE_SIZE + (AES_NONCE_SIZE * i + t)) =
    g.stream (g.pos + (AES_NONCE_SIZE * (i + 1) + t))
  congr 1
  ring

theorem encryptCalls_cons {p k : Buffer} {g : Rng} {e : EncryptedData} {g1 : Rng}
    (he : encrypt p k g = .ok (e, g1)) (n : Nat) :
    encryptCalls p k (n + 1) g =
      (e :: (encryptCalls p k n g1).1, (encryptCalls p k n g1).2) := by
  rw [encryptCalls, he]

theorem encryptCalls_spec {p k : Buffer} (hk : k.length = AES_KEY_SIZE) :
    ∀ (n : Nat) (g : Rng), encryptCalls p k n g =
      ((List.range n).map (fun i =>
        ⟨xorKS k (nonceBlock g i) 0 p, nonceBlock g i,
          gcmTag k (nonceBlock g i) (xorKS k (nonceBlock g i) 0 p)⟩),
        ⟨g.stream, g.pos + AES_NONCE_SIZE * n⟩) := by
  intro n
  induction n with
  | zero =>
    intro g
    obtain ⟨st, po⟩ := g
    simp [encryptCalls]
  | succ m ih =>
    intro g
    have hg1 : (randomBytes g AES_NONCE_SIZE).2 =
        (⟨g.stream, g.pos + AES_NONCE_SIZE⟩ : Rng) := rfl
    rw [encryptCalls_cons (encrypt_eq_ok hk p g) m, hg1,
      ih ⟨g.stream, g.pos + AES_NONCE_SIZE⟩]
    rw [List.range_succ_eq_map, List.map_cons, List.map_map]
    refine congrArg₂ Prod.mk (congrArg₂ List.cons ?_ ?_) ?_
    · rw [← nonceBlock_zero g]
    · refine List.map_congr_left ?_
      intro i hi
      simp only [Function.comp]
      rw [nonceBlock_succ g i]
    · show (⟨g.stream, g.pos + AES_NONCE_SIZE + AES_NONCE_SIZE * m⟩ : Rng) = _
      congr 1
      ring

theorem getD_map_range {α : Type} (f : Nat → α) {n i : Nat} (hi : i < n) (d : α) :
    ((List.range n).map f).getD i d = f i := by
  rw [List.getD_eq_getElem?_getD, List.getElem?_eq_getElem (by simpa using hi)]
  simp

/-- C6 (amended): every `encrypt` call draws its 12-byte nonce from the
cryptographically secure random source — callers never supply nonces — and
whenever the source does not repeat a 12-byte block within the run (true with
overwhelming probability for a real CSPRNG), `n` successive calls with the
same key (in particular 10,000) produce pairwise distinct nonces, and any two
of the calls produce different outputs even for identical plaintext and key. -/
theorem nonce_freshness (p k : Buffer) (g : Rng) (n : Nat)
    (hk : k.length = AES_KEY_SIZE)
    (hfresh : ∀ i < n, ∀ j < n, i ≠ j → nonceBlock g i ≠ nonceBlock g j) :
    (encryptCalls p k n g).1.length = n ∧
    (∀ i < n, ((encryptCalls p k n g).1.getD i ⟨[], [], []⟩).nonce =
      nonceBlock g i) ∧
    (∀ i < n, ∀ j < n, i ≠ j →
      ((encryptCalls p k n g).1.getD i ⟨[], [], []⟩).nonce ≠
        ((encryptCalls p k n g).1.getD j ⟨[], [], []⟩).nonce ∧
      (encryptCalls p k n g).1.getD i ⟨[], [], []⟩ ≠
        (encryptCalls p k n g).1.getD j ⟨[], [], []⟩) := by
  rw [encryptCalls_spec hk n g]
  simp only
  have hnonce : ∀ i < n, (((List.range n).map (fun i =>
      (⟨xorKS k (nonceBlock g i) 0 p, nonceBlock g i,
        gcmTag k (nonceBlock g i) (xorKS k (nonceBlock g i) 0 p)⟩ :
        EncryptedData))).getD i ⟨[], [], []⟩).nonce = nonceBlock g i := by
    intro i hi
    rw [getD_map_range _ hi]
  refine ⟨by simp, hnonce, ?_⟩
  intro i hi j hj hij
  have hne : nonceBlock g i ≠ nonceBlock g j := hfresh i hi j hj hij
  constructor
  · rw [hnonce i hi, hnonce j hj]; exact hne
  · intro h
    exact hne (by rw [← hnonce i hi, ← hnonce j hj, h])

/-- Counterexample for C6 as stated: with a random source that repeats (the
all-zero stream), two successive `encrypt` calls with the same key and
plaintext produce the same nonce and byte-identical output. -/
theorem nonce_freshness_counterexample :
    ((encryptCalls [5] cK0 2 ⟨fun _ => 0, 0⟩).1.getD 0 ⟨[], [], []⟩).nonce =
      ((encryptCalls [5] cK0 2 ⟨fun _ => 0, 0⟩).1.getD 1 ⟨[], [], []⟩).nonce ∧
    (encryptCalls [5] cK0 2 ⟨fun _ => 0, 0⟩).1.getD 0 ⟨[], [], []⟩ =
      (encryptCalls [5] cK0 2 ⟨fun _ => 0, 0⟩).1.getD 1 ⟨[], [], []⟩ := by
  constructor <;> rfl

/-- Witness for C6 (amended): two calls on a stream whose two 12-byte blocks
differ. -/
theorem nonce_freshness_witness :
    (List.replicate 32 0 : Buffer).length = AES_KEY_SIZE ∧
    (∀ i < 2, ∀ j < 2, i ≠ j →
      nonceBlock ⟨fun t => t, 0⟩ i ≠ nonceBlock ⟨fun t => t, 0⟩ j) ∧
    ((encryptCalls [5] (List.replicate 32 0) 2 ⟨fun t => t, 0⟩).1.length = 2 ∧
      (∀ i < 2, ((encryptCalls [5] (List.replicate 32 0) 2
          ⟨fun t => t, 0⟩).1.getD i ⟨[], [], []⟩).nonce =
        nonceBlock ⟨fun t => t, 0⟩ i) ∧
      (∀ i < 2, ∀ j < 2, i ≠ j →
        ((encryptCalls [5] (List.replicate 32 0) 2
            ⟨fun t => t, 0⟩).1.getD i ⟨[], [], []⟩).nonce ≠
          ((encryptCalls [5] (List.replicate 32 0) 2
            ⟨fun t => t, 0⟩).1.getD j ⟨[], [], []⟩).nonce ∧
        (encryptCalls [5] (List.replicate 32 0) 2
            ⟨fun t => t, 0⟩).1.getD i ⟨[], [], []⟩ ≠
          (encryptCalls [5] (List.replicate 32 0) 2
            ⟨fun t => t, 0⟩).1.getD j ⟨[], [], []⟩)) :=
  ⟨by decide, by decide,
    nonce_freshness [5] (List.replicate 32 0) ⟨fun t => t, 0⟩ 2
      (by decide) (by decide)⟩

/-! ### Recovery codes (C7, C8) -/

theorem charToNat_inj {a b : Char} (h : a.toNat = b.toNat) : a = b := by
  have h2 := congrArg Char.ofNat h
  rwa [Char.ofNat_toNat, Char.ofNat_toNat] at h2

theorem strBytes_inj {s t : String} (h : strBytes s = strBytes t) : s = t := by
  obtain ⟨sd⟩ := s
  obtain ⟨td⟩ := t
  unfold strBytes at h
  have hinj : Function.Injective Char.toNat := fun a b hab => charToNat_inj hab
  exact congrArg String.mk (List.map_injective_iff.2 hinj h)

/-- C7: the program violates the claim: `verifyRecoveryCode` returns `true`
on the matching code, but it ALSO returns `true` on every wrong code, because
the source discards the boolean `argon2.verify` resolves with and only the
(never-taken, for well-formed hashes) catch branch returns `false`.  The
underlying library comparison itself does resolve `false` for a wrong code —
the wrapper loses that result, so the spec's
`verify(wrongCode, hash(code)) == false` fails on the code. -/
theorem recovery_code_verify_bug (code wrong : String) (g : Rng) :
    verifyRecoveryCode code (hashRecoveryCode code g).1 = true ∧
    verifyRecoveryCode wrong (hashRecoveryCode code g).1 = true ∧
    (wrong ≠ code →
      argon2VerifyLib (hashRecoveryCode code g).1 wrong = .ok false) := by
  refine ⟨rfl, rfl, ?_⟩
  intro hne
  simp only [argon2VerifyLib, hashRecoveryCode, Except.ok.injEq,
    beq_eq_false_iff_ne, ne_eq]
  intro h
  exact hne (strBytes_inj (argon2id_inj h).1)

/-- Witness for C7 at two concrete distinct codes: the wrapper answers `true`
for the wrong code even though the library comparison resolves `false`. -/
theorem recovery_code_verify_bug_witness :
    verifyRecoveryCode "ABCD2345" (hashRecoveryCode "ABCD2345" cG).1 = true ∧
    verifyRecoveryCode "WXYZ9876" (hashRecoveryCode "ABCD2345" cG).1 = true ∧
    argon2VerifyLib (hashRecoveryCode "ABCD2345" cG).1 "WXYZ9876" = .ok false :=
  ⟨(recovery_code_verify_bug "ABCD2345" "WXYZ9876" cG).1,
    (recovery_code_verify_bug "ABCD2345" "WXYZ9876" cG).2.1,
    (recovery_code_verify_bug "ABCD2345" "WXYZ9876" cG).2.2 (by decide)⟩

/-- The 8 charset indices the random source supplies to the `i`-th code of a
`generateRecoveryCodes` run starting at `g`. -/
def blockAt (g : Rng) (i : Nat) : List Nat :=
  (List.range CODE_LENGTH).map
    (fun t => g.stream (g.pos + (CODE_LENGTH * i + t)) % CODE_CHARSET.length)

theorem genCodeChars_spec : ∀ (n : Nat) (g : Rng), genCodeChars n g =
    ((List.range n).map
      (fun t => CODE_CHARSET.getD (g.stream (g.pos + t) % CODE_CHARSET.length) 'A'),
      ⟨g.stream, g.pos + n⟩) := by
  intro n
  induction n with
  | zero =>
    intro g
    obtain ⟨st, po⟩ := g
    simp [genCodeChars]
  | succ m ih =>
    intro g
    have hg1 : (randomInt g CODE_CHARSET.length).2 =
        (⟨g.stream, g.pos + 1⟩ : Rng) := rfl
    simp only [genCodeChars]
    rw [hg1, ih ⟨g.stream, g.pos + 1⟩]
    rw [List.range_succ_eq_map, List.map_cons, List.map_map]
    refine congrArg₂ Prod.mk (congrArg₂ List.cons ?_ ?_) ?_
    · show CODE_CHARSET.getD (g.stream g.pos % CODE_CHARSET.length) 'A' =
        CODE_CHARSET.getD (g.stream (g.pos + 0) % CODE_CHARSET.length) 'A'
      rw [Nat.add_zero]
    · refine List.map_congr_left ?_
      intro t ht
      simp only [Function.comp]
      show CODE_CHARSET.getD (g.stream (g.pos + 1 + t) % CODE_CHARSET.length) 'A' =
        CODE_CHARSET.getD (g.stream (g.pos + (t + 1)) % CODE_CHARSET.length) 'A'
      refine congrArg (fun r => CODE_CHARSET.getD r 'A')
        (congrArg (fun x => x % CODE_CHARSET.length) (congrArg g.stream ?_))
      ring
    · show (⟨g.stream, g.pos + 1 + m⟩ : Rng) = ⟨g.stream, g.pos + (m + 1)⟩
      congr 1
      ring

theorem blockAt_succ (g : Rng) (i : Nat) :
    blockAt ⟨g.stream, g.pos + CODE_LENGTH⟩ i = blockAt g (i + 1) := by
  unfold blockAt
  refine congrArg (fun f => List.map f (List.range CODE_LENGTH)) ?_
  funext t
  show g.stream (g.pos + CODE_LENGTH + (CODE_LENGTH * i + t)) % CODE_CHARSET.length =
    g.stream (g.pos + (CODE_LENGTH * (i + 1) + t)) % CODE_CHARSET.length
  refine congrArg (fun x => x % CODE_CHARSET.length) (congrArg g.stream ?_)
  ring

theorem genCodes_spec : ∀ (n : Nat) (g : Rng), genCodes n g =
    ((List.range n).map (fun i =>
      String.mk ((blockAt g i).map (fun r => CODE_CHARSET.getD r 'A'))),
      ⟨g.stream, g.pos + CODE_LENGTH * n⟩) := by
  intro n
  induction n with
  | zero =>
    intro g
    obtain ⟨st, po⟩ := g
    simp [genCodes]
  | succ m ih =>
    intro g
    have hfst : (genCodeChars CODE_LENGTH g).1 = (List.range CODE_LENGTH).map
        (fun t => CODE_CHARSET.getD (g.stream (g.pos + t) % CODE_CHARSET.length) 'A') :=
      congrArg Prod.fst (genCodeChars_spec CODE_LENGTH g)
    have hsnd : (genCodeChars CODE_LENGTH g).2 =
        (⟨g.stream, g.pos + CODE_LENGTH⟩ : Rng) :=
      congrArg Prod.snd (genCodeChars_spec CODE_LENGTH g)
    simp only [genCodes]
    rw [hfst, hsnd, ih ⟨g.stream, g.pos + CODE_LENGTH⟩]
    rw [List.range_succ_eq_map, List.map_cons, List.map_map]
    refine congrArg₂ Prod.mk (congrArg₂ List.cons ?_ ?_) ?_
    · refine congrArg String.mk ?_
      show (List.range CODE_LENGTH).map
          (fun t => CODE_CHARSET.getD (g.stream (g.pos + t) % CODE_CHARSET.length) 'A') =
        (blockAt g 0).map (fun r => CODE_CHARSET.getD r 'A')
      unfold blockAt
      rw [List.map_map]
      refine List.map_congr_left ?_
      intro t ht
      simp only [Function.comp]
      refine congrArg (fun r => CODE_CHARSET.getD r 'A')
        (congrArg (fun x => x % CODE_CHARSET.length) (congrArg g.stream ?_))
      ring
    · refine List.map_congr_left ?_
      intro i hi
      simp only [Function.comp]
      rw [blockAt_succ g i]
    · show (⟨g.stream, g.pos + CODE_LENGTH + CODE_LENGTH * m⟩ : Rng) =
        ⟨g.stream, g.pos + CODE_LENGTH * (m + 1)⟩
      congr 1
      ring

theorem charAt_mem (r : Nat) : CODE_CHARSET.getD r 'A' ∈ CODE_CHARSET := by
  by_cases h : r < CODE_CHARSET.length
  · rw [List.getD_eq_getElem?_getD, List.getElem?_eq_getElem h]
    simp only [Option.getD_some]
    exact List.getElem_mem h
  · rw [List.getD_eq_getElem?_getD, List.getElem?_eq_none (by omega)]
    decide

theorem charAt_inj {r1 r2 : Nat} (h1 : r1 < CODE_CHARSET.length)
    (h2 : r2 < CODE_CHARSET.length)
    (h : CODE_CHARSET.getD r1 'A' = CODE_CHARSET.getD r2 'A') : r1 = r2 := by
  rw [List.getD_eq_getElem?_getD, List.getElem?_eq_getElem h1] at h
  rw [List.getD_eq_getElem?_getD, List.getElem?_eq_getElem h2] at h
  simp only [Option.getD_some] at h
  have hnd : CODE_CHARSET.Nodup := by decide
  have hfin : (⟨r1, h1⟩ : Fin CODE_CHARSET.length) = ⟨r2, h2⟩ :=
    List.nodup_iff_injective_get.1 hnd (by simpa [List.get_eq_getElem] using h)
  simpa using congrArg Fin.val hfin

theorem charMap_inj : ∀ (b1 b2 : List Nat),
    (∀ r ∈ b1, r < CODE_CHARSET.length) → (∀ r ∈ b2, r < CODE_CHARSET.length) →
    b1.map (fun r => CODE_CHARSET.getD r 'A') =
      b2.map (fun r => CODE_CHARSET.getD r 'A') → b1 = b2
  | [], [], _, _, _ => rfl
  | [], _ :: _, _, _, h => by simp at h
  | _ :: _, [], _, _, h => by simp at h
  | r1 :: b1, r2 :: b2, hb1, hb2, h => by
    simp only [List.map_cons, List.cons.injEq] at h
    have hr := charAt_inj (hb1 r1 (by simp)) (hb2 r2 (by simp)) h.1
    have hrest := charMap_inj b1 b2 (fun r hr2 => hb1 r (by simp [hr2]))
      (fun r hr2 => hb2 r (by simp [hr2])) h.2
    rw [hr, hrest]

theorem blockAt_lt (g : Rng) (i : Nat) : ∀ r ∈ blockAt g i, r < CODE_CHARSET.length := by
  intro r hr
  simp only [blockAt, List.mem_map, List.mem_range] at hr
  obtain ⟨t, ht, hval⟩ := hr
  rw [← hval]
  exact Nat.mod_lt _ (by decide)

/-- C8 (amended): every call to `generateRecoveryCodes` returns exactly 10
codes, each exactly 8 characters long, every character drawn from the
restricted 32-character alphabet, which excludes the ambiguous characters
0, O, 1 and I (but does contain L); the code performs no deduplication, so the
batch is duplicate-free exactly when the random source supplies ten pairwise
distinct 8-draw blocks (true except with negligible probability). -/
theorem recovery_codes_generation (g : Rng)
    (hdist : ∀ i < CODE_COUNT, ∀ j < CODE_COUNT, i ≠ j →
      blockAt g i ≠ blockAt g j) :
    (generateRecoveryCodes g).1.length = CODE_COUNT ∧
    (∀ c ∈ (generateRecoveryCodes g).1, c.length = CODE_LENGTH ∧
      ∀ ch ∈ c.data, ch ∈ CODE_CHARSET) ∧
    (CODE_CHARSET.length = 32 ∧ '0' ∉ CODE_CHARSET ∧ 'O' ∉ CODE_CHARSET ∧
      '1' ∉ CODE_CHARSET ∧ 'I' ∉ CODE_CHARSET) ∧
    (generateRecoveryCodes g).1.Nodup := by
  have hfst : (generateRecoveryCodes g).1 = (List.range CODE_COUNT).map (fun i =>
      String.mk ((blockAt g i).map (fun r => CODE_CHARSET.getD r 'A'))) :=
    congrArg Prod.fst (genCodes_spec CODE_COUNT g)
  rw [hfst]
  refine ⟨by simp, ?_, by decide, ?_⟩
  · intro c hc
    simp only [List.mem_map, List.mem_range] at hc
    obtain ⟨i, hi, rfl⟩ := hc
    constructor
    · show ((blockAt g i).map (fun r => CODE_CHARSET.getD r 'A')).length = CODE_LENGTH
      simp [blockAt]
    · intro ch hch
      have hch2 : ch ∈ (blockAt g i).map (fun r => CODE_CHARSET.getD r 'A') := hch
      obtain ⟨r, hr, rfl⟩ := List.mem_map.1 hch2
      exact charAt_mem r
  · refine List.Nodup.map_on ?_ (List.nodup_range CODE_COUNT)
    intro i hi j hj hf
    simp only [List.mem_range] at hi hj
    by_contra hne
    refine hdist i hi j hj hne ?_
    have hdata : (blockAt g i).map (fun r => CODE_CHARSET.getD r 'A') =
        (blockAt g j).map (fun r => CODE_CHARSET.getD r 'A') :=
      congrArg String.data hf
    exact charMap_inj _ _ (blockAt_lt g i) (blockAt_lt g j) hdata

/-- Counterexample for C8 as stated: the alphabet the code draws from does
contain the ambiguous character L the claim says is excluded, and with a
random source that repeats (the all-zero stream) `generateRecoveryCodes`
returns ten identical codes — there is no deduplication step, so the
no-duplicates conjunct is not unconditional either. -/
theorem recovery_codes_counterexample :
    'L' ∈ CODE_CHARSET ∧
    ((generateRecoveryCodes ⟨fun _ => 0, 0⟩).1.getD 0 "" =
      (generateRecoveryCodes ⟨fun _ => 0, 0⟩).1.getD 1 "" ∧
    ¬ (generateRecoveryCodes ⟨fun _ => 0, 0⟩).1.Nodup) := by
  refine ⟨by decide, rfl, by decide⟩

/-- Witness for C8 (amended) on a stream whose ten 8-draw blocks differ. -/
theorem recovery_codes_generation_witness :
    (∀ i < CODE_COUNT, ∀ j < CODE_COUNT, i ≠ j →
      blockAt ⟨fun t => t / 8, 0⟩ i ≠ blockAt ⟨fun t => t / 8, 0⟩ j) ∧
    ((generateRecoveryCodes ⟨fun t => t / 8, 0⟩).1.length = CODE_COUNT ∧
      (∀ c ∈ (generateRecoveryCodes ⟨fun t => t / 8, 0⟩).1,
        c.length = CODE_LENGTH ∧ ∀ ch ∈ c.data, ch ∈ CODE_CHARSET) ∧
      (CODE_CHARSET.length = 32 ∧ '0' ∉ CODE_CHARSET ∧ 'O' ∉ CODE_CHARSET ∧
        '1' ∉ CODE_CHARSET ∧ 'I' ∉ CODE_CHARSET) ∧
      (generateRecoveryCodes ⟨fun t => t / 8, 0⟩).1.Nodup) :=
  ⟨by decide, recovery_codes_generation ⟨fun t => t / 8, 0⟩ (by decide)⟩

end PersonalData
